import Mathlib

/-!
Shallow embedding of the kallm in-memory semantic cache (package `cache`
plus the `api.CacheEntry` data model).

Modelling conventions:
* Go `float64` values are modelled as real numbers (`ℝ`); `math.Sqrt` is
  `Real.sqrt`.
* Go `time.Time` values are modelled as integers (`ℤ`); the zero value of
  `time.Time` is `0`, `t.After u` is `t > u` and `t.Before u` is `t < u`.
  Functions that call `time.Now()` take the current time `now : ℤ` as an
  explicit argument.
* The opaque request/response payloads of a cache entry are modelled as
  natural-number identifiers; the cache never inspects them.
* The statement `go m.updateHitStats(bestMatch)` spawns an asynchronous
  task holding a reference to the matched entry; it is modelled by the
  `deferredHitUpdate` field of `GetResult`, which records the captured
  entry of the spawned task (`none` when no task is spawned).  The entry
  collection itself is returned unchanged by `Get`, exactly as in the
  code, where the mutation happens only later inside the spawned task.
-/

namespace Kallm

/-- The `api.CacheEntry` record: a cached response with metadata. -/
structure CacheEntry where
  request : Nat
  response : Nat
  embedding : List ℝ
  createdAt : ℤ
  expiresAt : ℤ
  hitCount : ℤ
  lastHitAt : ℤ

/-- The `cache.Options` record configuring cache behavior. -/
structure Options where
  maxSize : Nat
  defaultTTL : ℤ
  cleanupInterval : ℤ
  similarityThreshold : ℝ

/-- The mutable state of `cache.MemoryCache`: the entry collection and the
hit/miss counters.  The reader/writer lock guards the collection in the Go
code; the sequential model makes each operation an atomic state
transition. -/
structure MemoryCache where
  entries : List CacheEntry
  opts : Options
  hits : ℤ
  misses : ℤ

/-- The `cache.NewMemoryCache` constructor: an empty collection with the
given options and zeroed counters.  (The cleanup goroutine it starts is
a periodic invocation of `Cleanup` and is not part of the state.) -/
def NewMemoryCache (opts : Options) : MemoryCache :=
  { entries := [], opts := opts, hits := 0, misses := 0 }

/-- The accumulated `normA` (resp. `normB`) of the `CosineSimilarity`
loop: the sum of squares of the components. -/
def sqNorm (a : List ℝ) : ℝ :=
  (a.map fun x => x * x).sum

/-- The accumulated `dotProduct` of the `CosineSimilarity` loop; the loop
runs over equal-length vectors, modelled by summing over the zip. -/
def dotList (a b : List ℝ) : ℝ :=
  ((a.zip b).map fun p => p.1 * p.2).sum

/-- The `cache.CosineSimilarity` function: dot(a,b) / (‖a‖·‖b‖), with the
guards of the Go code: `0` on length mismatch or empty input, and `0`
when either accumulated square norm is zero. -/
noncomputable def CosineSimilarity (a b : List ℝ) : ℝ :=
  if a.length ≠ b.length ∨ a.length = 0 then 0
  else if sqNorm a = 0 ∨ sqNorm b = 0 then 0
  else dotList a b / (Real.sqrt (sqNorm a) * Real.sqrt (sqNorm b))

/-- One iteration of the scan loop of `MemoryCache.Get`: skip the entry if
it is expired (`now.After(entry.ExpiresAt)`); otherwise replace the running
best when `similarity >= threshold && similarity > bestSimilarity`. -/
noncomputable def getStep (now : ℤ) (embedding : List ℝ) (threshold : ℝ)
    (acc : Option CacheEntry × ℝ) (entry : CacheEntry) : Option CacheEntry × ℝ :=
  if now > entry.expiresAt then acc
  else
    let similarity := CosineSimilarity embedding entry.embedding
    if similarity ≥ threshold ∧ similarity > acc.2 then (some entry, similarity) else acc

/-- The value returned by `MemoryCache.Get` together with its state
effects: the 3-tuple result, the cache with its counter updated, and the
entry captured by the `go m.updateHitStats(bestMatch)` task (if one was
spawned). -/
structure GetResult where
  entry : Option CacheEntry
  similarity : ℝ
  found : Bool
  cache : MemoryCache
  deferredHitUpdate : Option CacheEntry

/-- The `MemoryCache.Get` method: scan all entries with `getStep` starting
from `(nil, 0)`; on a match bump the hit counter and spawn the deferred
hit-stats update; on a miss bump the miss counter. -/
noncomputable def MemoryCache.Get (m : MemoryCache) (now : ℤ)
    (embedding : List ℝ) (threshold : ℝ) : GetResult :=
  match m.entries.foldl (getStep now embedding threshold) (none, 0) with
  | (some e, s) =>
      { entry := some e, similarity := s, found := true,
        cache := { m with hits := m.hits + 1 }, deferredHitUpdate := some e }
  | (none, _) =>
      { entry := none, similarity := 0, found := false,
        cache := { m with misses := m.misses + 1 }, deferredHitUpdate := none }

/-- The duplicate scan of `MemoryCache.Set`: index of the first stored
entry whose similarity to the new embedding exceeds `0.99`, if any. -/
noncomputable def firstDupIdx (embedding : List ℝ) : List CacheEntry → Option Nat
  | [] => none
  | e :: rest =>
      if CosineSimilarity embedding e.embedding > 0.99 then some 0
      else (firstDupIdx embedding rest).map (· + 1)

/-- Removal by swapping with the last element, as in `evictOldest`:
`entries[i] = entries[len-1]; entries = entries[:len-1]`. -/
def swapRemove (l : List CacheEntry) (i : Nat) : List CacheEntry :=
  match l.getLast? with
  | none => l
  | some last => (l.set i last).dropLast

/-- One iteration of the `evictOldest` loop over the indexed entries:
keep the index with the earliest `lastHitAt` (strict `Before`). -/
def oldestStep (best : Nat × ℤ) (ie : Nat × CacheEntry) : Nat × ℤ :=
  if ie.2.lastHitAt < best.2 then (ie.1, ie.2.lastHitAt) else best

/-- The `MemoryCache.evictOldest` method on the entry collection: find the
index with the earliest `lastHitAt` (starting from index 0) and remove it
by swapping with the last element; no-op on an empty collection. -/
def evictOldest (l : List CacheEntry) : List CacheEntry :=
  match l with
  | [] => []
  | e0 :: _ => swapRemove l (l.enum.foldl oldestStep (0, e0.lastHitAt)).1

/-- The `MemoryCache.Set` method: overwrite the first near-duplicate
(similarity `> 0.99`) in place if one exists; otherwise evict when at
capacity and append the new entry.  The Go method always returns a nil
error, so only the state transition is modelled. -/
noncomputable def MemoryCache.Set (m : MemoryCache) (entry : CacheEntry) : MemoryCache :=
  match firstDupIdx entry.embedding m.entries with
  | some i => { m with entries := m.entries.set i entry }
  | none =>
      let es := if m.entries.length ≥ m.opts.maxSize then evictOldest m.entries else m.entries
      { m with entries := es ++ [entry] }

/-- One iteration of the `Cleanup` loop: keep the entry when
`now.Before(e.ExpiresAt)`, otherwise count it as removed. -/
def cleanupStep (now : ℤ) (acc : List CacheEntry × Nat) (e : CacheEntry) :
    List CacheEntry × Nat :=
  if now < e.expiresAt then (acc.1 ++ [e], acc.2) else (acc.1, acc.2 + 1)

/-- The `MemoryCache.Cleanup` method: filter out expired entries in one
pass and return the new state together with the number removed. -/
def MemoryCache.Cleanup (m : MemoryCache) (now : ℤ) : MemoryCache × Nat :=
  match m.entries.foldl (cleanupStep now) ([], 0) with
  | (active, removed) => ({ m with entries := active }, removed)

/-- The `MemoryCache.Size` method: the number of stored entries. -/
def MemoryCache.Size (m : MemoryCache) : Nat :=
  m.entries.length

/-! ### Lemmas about the vector math -/

lemma dotList_cons (x y : ℝ) (xs ys : List ℝ) :
    dotList (x :: xs) (y :: ys) = x * y + dotList xs ys := by
  simp [dotList]

lemma dotList_comm (a b : List ℝ) : dotList a b = dotList b a := by
  induction a generalizing b with
  | nil => cases b <;> simp [dotList]
  | cons x xs ih =>
      cases b with
      | nil => simp [dotList]
      | cons y ys => rw [dotList_cons, dotList_cons, mul_comm, ih]

/-- C7: `CosineSimilarity` returns exactly `0` whenever the vectors differ
in length, either is empty, or either has zero magnitude (zero sum of
squares).  In the real-valued model no NaN or infinity can arise: the
division is guarded by the two zero tests, so the result is a plain real
number, and in each degenerate case it is exactly `0`. -/
theorem cosine_degenerate_zero (a b : List ℝ)
    (h : a.length ≠ b.length ∨ a = [] ∨ b = [] ∨ sqNorm a = 0 ∨ sqNorm b = 0) :
    CosineSimilarity a b = 0 := by
  unfold CosineSimilarity
  rcases h with h | h | h | h | h
  · rw [if_pos (Or.inl h)]
  · rw [if_pos (Or.inr (by simp [h]))]
  · by_cases ha : a.length = 0
    · rw [if_pos (Or.inr ha)]
    · rw [if_pos (Or.inl (by simpa [h] using ha))]
  · by_cases hg : a.length ≠ b.length ∨ a.length = 0
    · rw [if_pos hg]
    · rw [if_neg hg, if_pos (Or.inl h)]
  · by_cases hg : a.length ≠ b.length ∨ a.length = 0
    · rw [if_pos hg]
    · rw [if_neg hg, if_pos (Or.inr h)]

/-- Witness for C7 at a concrete input: `[1]` and `[1, 1]` differ in
length, and the similarity is `0`. -/
theorem cosine_degenerate_zero_witness :
    ([1] : List ℝ).length ≠ ([1, 1] : List ℝ).length ∧
      CosineSimilarity [1] [1, 1] = 0 :=
  ⟨by simp, cosine_degenerate_zero [1] [1, 1] (Or.inl (by simp))⟩

/-- C8: cosine similarity is commutative. -/
theorem cosine_comm (a b : List ℝ) : CosineSimilarity a b = CosineSimilarity b a := by
  unfold CosineSimilarity
  by_cases h1 : a.length ≠ b.length ∨ a.length = 0
  · have h1' : b.length ≠ a.length ∨ b.length = 0 := by
      rcases h1 with h | h
      · exact Or.inl (Ne.symm h)
      · by_cases hb : b.length = 0
        · exact Or.inr hb
        · exact Or.inl (by omega)
    rw [if_pos h1, if_pos h1']
  · push_neg at h1
    obtain ⟨hlen, hz⟩ := h1
    have h1' : ¬(b.length ≠ a.length ∨ b.length = 0) := by
      push_neg
      exact ⟨hlen.symm, by omega⟩
    rw [if_neg (by push_neg; exact ⟨hlen, hz⟩), if_neg h1', dotList_comm]
    by_cases hA : sqNorm a = 0 ∨ sqNorm b = 0
    · rw [if_pos hA, if_pos hA.symm]
    · rw [if_neg hA, if_neg (fun hc => hA hc.symm), mul_comm (Real.sqrt (sqNorm a))]

/-! ### Lemmas about Cleanup -/

lemma cleanup_fold (now : ℤ) (l : List CacheEntry) :
    ∀ acc : List CacheEntry × Nat,
    l.foldl (cleanupStep now) acc =
      (acc.1 ++ l.filter fun e => decide (now < e.expiresAt),
       acc.2 + l.countP fun e => decide (e.expiresAt ≤ now)) := by
  induction l with
  | nil => intro acc; simp
  | cons e rest ih =>
      intro acc
      rw [List.foldl_cons, ih]
      by_cases h : now < e.expiresAt
      · simp [cleanupStep, h, List.filter_cons, List.countP_cons, not_le.mpr h]
      · simp [cleanupStep, h, List.filter_cons, List.countP_cons, not_lt.mp h]
        omega

lemma Cleanup_eq (m : MemoryCache) (now : ℤ) :
    m.Cleanup now =
      ({ m with entries := m.entries.filter fun e => decide (now < e.expiresAt) },
        m.entries.countP fun e => decide (e.expiresAt ≤ now)) := by
  unfold MemoryCache.Cleanup
  rw [cleanup_fold]
  simp

/-- C5: `Cleanup` keeps exactly the entries whose `expiresAt` is strictly
after the current time (each kept entry itself unchanged, in order),
returns the number of entries whose `expiresAt` is at or before the
current time, and an immediately repeated call at the same time removes
zero entries and leaves the state fixed. -/
theorem cleanup_removes_exactly_expired (now : ℤ) (m : MemoryCache) :
    (m.Cleanup now).1.entries = m.entries.filter (fun e => decide (now < e.expiresAt)) ∧
    (m.Cleanup now).2 = m.entries.countP (fun e => decide (e.expiresAt ≤ now)) ∧
    (m.Cleanup now).1.Cleanup now = ((m.Cleanup now).1, 0) := by
  refine ⟨by rw [Cleanup_eq], by rw [Cleanup_eq], ?_⟩
  rw [Cleanup_eq, Cleanup_eq]
  refine Prod.ext ?_ ?_
  · show ({ m with entries := _ } : MemoryCache) = { m with entries := _ }
    simp only [MemoryCache.mk.injEq, and_true, true_and]
    rw [List.filter_filter]
    apply List.filter_congr
    intro e _
    simp
  · show List.countP _ (List.filter _ _) = 0
    rw [List.countP_eq_zero]
    intro e he
    have := List.of_mem_filter he
    simp at this ⊢
    omega

/-! ### Lemmas about the Get scan -/

lemma getStep_fire (now : ℤ) (emb : List ℝ) (thr : ℝ) (acc : Option CacheEntry × ℝ)
    (x : CacheEntry) (hlive : ¬ now > x.expiresAt)
    (hthr : CosineSimilarity emb x.embedding ≥ thr)
    (hgt : CosineSimilarity emb x.embedding > acc.2) :
    getStep now emb thr acc x = (some x, CosineSimilarity emb x.embedding) := by
  unfold getStep
  rw [if_neg hlive, if_pos ⟨hthr, hgt⟩]

lemma getStep_skip (now : ℤ) (emb : List ℝ) (thr : ℝ) (acc : Option CacheEntry × ℝ)
    (x : CacheEntry)
    (h : ¬(¬ now > x.expiresAt ∧ CosineSimilarity emb x.embedding ≥ thr ∧
        CosineSimilarity emb x.embedding > acc.2)) :
    getStep now emb thr acc x = acc := by
  unfold getStep
  by_cases hexp : now > x.expiresAt
  · rw [if_pos hexp]
  · rw [if_neg hexp, if_neg]
    intro hc
    exact h ⟨hexp, hc.1, hc.2⟩

/-- Characterization of the scan loop of `Get`, for any starting
accumulator: either no entry fires and the accumulator together with an
upper bound on every qualifying similarity is returned, or the result is
the first entry attaining the maximal qualifying similarity that exceeds
the starting accumulator. -/
lemma getScan_chars (now : ℤ) (emb : List ℝ) (thr : ℝ) (l : List CacheEntry) :
    ∀ acc : Option CacheEntry × ℝ,
    (l.foldl (getStep now emb thr) acc = acc ∧
      ∀ x ∈ l, ¬ now > x.expiresAt → CosineSimilarity emb x.embedding ≥ thr →
        CosineSimilarity emb x.embedding ≤ acc.2)
    ∨ (∃ l₁ e l₂, l = l₁ ++ e :: l₂ ∧ (¬ now > e.expiresAt) ∧
        CosineSimilarity emb e.embedding ≥ thr ∧
        acc.2 < CosineSimilarity emb e.embedding ∧
        l.foldl (getStep now emb thr) acc = (some e, CosineSimilarity emb e.embedding) ∧
        (∀ x ∈ l₁, ¬ now > x.expiresAt → CosineSimilarity emb x.embedding ≥ thr →
          CosineSimilarity emb x.embedding < CosineSimilarity emb e.embedding) ∧
        (∀ x ∈ l₂, ¬ now > x.expiresAt → CosineSimilarity emb x.embedding ≥ thr →
          CosineSimilarity emb x.embedding ≤ CosineSimilarity emb e.embedding)) := by
  induction l with
  | nil =>
      intro acc
      left
      exact ⟨rfl, by simp⟩
  | cons x rest ih =>
      intro acc
      have hfold : (x :: rest).foldl (getStep now emb thr) acc =
          rest.foldl (getStep now emb thr) (getStep now emb thr acc x) :=
        List.foldl_cons _ _
      by_cases hfire : ¬ now > x.expiresAt ∧ CosineSimilarity emb x.embedding ≥ thr ∧
          CosineSimilarity emb x.embedding > acc.2
      · have hstep := getStep_fire now emb thr acc x hfire.1 hfire.2.1 hfire.2.2
        rcases ih (getStep now emb thr acc x) with ⟨heq, hmax⟩ |
          ⟨l₁, e, l₂, hsplit, hlive, hthr, hgt, heq, hbefore, hafter⟩
        · right
          refine ⟨[], x, rest, rfl, hfire.1, hfire.2.1, hfire.2.2, ?_, by simp, ?_⟩
          · rw [hfold, heq, hstep]
          · intro z hz h1 h2
            have := hmax z hz h1 h2
            rw [hstep] at this
            exact this
        · right
          rw [hstep] at hgt
          refine ⟨x :: l₁, e, l₂, by rw [hsplit, List.cons_append], hlive, hthr, ?_, ?_, ?_, hafter⟩
          · exact lt_trans hfire.2.2 hgt
          · rw [hfold, heq]
          · intro z hz h1 h2
            rcases List.mem_cons.mp hz with hz | hz
            · rw [hz]
              exact hgt
            · exact hbefore z hz h1 h2
      · have hstep := getStep_skip now emb thr acc x hfire
        rcases ih (getStep now emb thr acc x) with ⟨heq, hmax⟩ |
          ⟨l₁, e, l₂, hsplit, hlive, hthr, hgt, heq, hbefore, hafter⟩
        · left
          constructor
          · rw [hfold, heq, hstep]
          · intro z hz h1 h2
            rcases List.mem_cons.mp hz with hz | hz
            · rw [hz]
              by_contra hlt
              exact hfire ⟨hz ▸ h1, hz ▸ h2, lt_of_not_le hlt⟩
            · have := hmax z hz h1 h2
              rw [hstep] at this
              exact this
        · right
          rw [hstep] at hgt
          refine ⟨x :: l₁, e, l₂, by rw [hsplit, List.cons_append], hlive, hthr, hgt, ?_, ?_, hafter⟩
          · rw [hfold, heq]
          · intro z hz h1 h2
            rcases List.mem_cons.mp hz with hz | hz
            · rw [hz]
              by_contra hlt
              exact hfire ⟨hz ▸ h1, hz ▸ h2, lt_of_lt_of_le hgt (le_of_not_lt hlt)⟩
            · exact hbefore z hz h1 h2

/-! ### Concrete vectors and cache states used for witnesses -/

lemma cs_e1_e1 : CosineSimilarity ([1, 0, 0] : List ℝ) [1, 0, 0] = 1 := by
  unfold CosineSimilarity sqNorm dotList
  norm_num [Real.sqrt_one]

lemma cs_orth2 : CosineSimilarity ([1, 0] : List ℝ) [0, 1] = 0 := by
  unfold CosineSimilarity sqNorm dotList
  norm_num

/-- A stored entry with embedding `[0, 1]`, not yet expired at time 0. -/
def cexEntry : CacheEntry :=
  { request := 0, response := 0, embedding := [0, 1], createdAt := 0,
    expiresAt := 100, hitCount := 0, lastHitAt := 0 }

/-- A one-entry cache holding `cexEntry`. -/
def cexCache : MemoryCache :=
  { entries := [cexEntry], opts := ⟨10, 0, 0, 0.95⟩, hits := 0, misses := 0 }

/-- Counterexample to C1 as stated: with threshold `0`, the single stored
entry is live and its similarity to the query `[1, 0]` is `0 ≥ 0`, so the
claim demands `found = true`; but the running best similarity starts at
`0` and is only replaced by a strictly greater one, so `Get` returns
`found = false`. -/
theorem get_highest_qualifying_cex :
    (¬ (0 : ℤ) > cexEntry.expiresAt) ∧
    CosineSimilarity [1, 0] cexEntry.embedding ≥ 0 ∧
    cexEntry ∈ cexCache.entries ∧
    (cexCache.Get 0 [1, 0] 0).found = false := by
  have hcs : CosineSimilarity [1, 0] cexEntry.embedding = 0 := cs_orth2
  refine ⟨by norm_num [cexEntry], by rw [hcs], by simp [cexCache], ?_⟩
  unfold MemoryCache.Get
  have hfold : cexCache.entries.foldl (getStep 0 [1, 0] 0) (none, 0) = (none, 0) := by
    show [cexEntry].foldl _ _ = _
    rw [List.foldl_cons, List.foldl_nil]
    apply getStep_skip
    intro h
    exact absurd h.2.2 (by rw [hcs]; norm_num)
  rw [hfold]

/-- C1 (amended): `Get` returns `found = true` together with the live
entry of maximal similarity among those with similarity at or above the
threshold and **strictly positive** similarity; when no live entry has
similarity at or above the threshold and strictly positive, it returns
`found = false` with no entry and similarity `0`. -/
theorem get_highest_qualifying (m : MemoryCache) (now : ℤ) (emb : List ℝ) (thr : ℝ) :
    ((∃ e ∈ m.entries, ¬ now > e.expiresAt ∧ CosineSimilarity emb e.embedding ≥ thr ∧
        0 < CosineSimilarity emb e.embedding) →
      (m.Get now emb thr).found = true ∧
      ∃ e ∈ m.entries, (¬ now > e.expiresAt) ∧ CosineSimilarity emb e.embedding ≥ thr ∧
        0 < CosineSimilarity emb e.embedding ∧
        (m.Get now emb thr).entry = some e ∧
        (m.Get now emb thr).similarity = CosineSimilarity emb e.embedding ∧
        ∀ x ∈ m.entries, ¬ now > x.expiresAt → CosineSimilarity emb x.embedding ≥ thr →
          CosineSimilarity emb x.embedding ≤ CosineSimilarity emb e.embedding) ∧
    ((∀ e ∈ m.entries, ¬ now > e.expiresAt → CosineSimilarity emb e.embedding ≥ thr →
        CosineSimilarity emb e.embedding ≤ 0) →
      (m.Get now emb thr).found = false ∧ (m.Get now emb thr).entry = none ∧
      (m.Get now emb thr).similarity = 0) := by
  rcases getScan_chars now emb thr m.entries (none, 0) with ⟨heq, hmax⟩ |
    ⟨l₁, e, l₂, hsplit, hlive, hthr, hgt, heq, hbefore, hafter⟩
  · constructor
    · rintro ⟨x, hx, hxlive, hxthr, hxpos⟩
      have := hmax x hx hxlive hxthr
      exact absurd hxpos (by simp at this ⊢; linarith)
    · intro _
      unfold MemoryCache.Get
      rw [heq]
      exact ⟨rfl, rfl, rfl⟩
  · have hmem : e ∈ m.entries := by rw [hsplit]; simp
    have hmax : ∀ x ∈ m.entries, ¬ now > x.expiresAt → CosineSimilarity emb x.embedding ≥ thr →
        CosineSimilarity emb x.embedding ≤ CosineSimilarity emb e.embedding := by
      intro x hx h1 h2
      rw [hsplit] at hx
      rcases List.mem_append.mp hx with hx | hx
      · exact le_of_lt (hbefore x hx h1 h2)
      · rcases List.mem_cons.mp hx with hx | hx
        · rw [hx]
        · exact hafter x hx h1 h2
    constructor
    · intro _
      have hpos : 0 < CosineSimilarity emb e.embedding := by simpa using hgt
      constructor
      · unfold MemoryCache.Get
        rw [heq]
      · exact ⟨e, hmem, hlive, hthr, hpos,
          by unfold MemoryCache.Get; rw [heq],
          by unfold MemoryCache.Get; rw [heq], hmax⟩
    · intro hnone
      have := hnone e hmem hlive hthr
      have hpos : 0 < CosineSimilarity emb e.embedding := by simpa using hgt
      linarith

/-- A stored entry with embedding `[1, 0, 0]`, not yet expired at time 0,
with some accumulated hit bookkeeping. -/
def witEntry : CacheEntry :=
  { request := 1, response := 1, embedding := [1, 0, 0], createdAt := 0,
    expiresAt := 100, hitCount := 5, lastHitAt := 7 }

/-- A one-entry cache holding `witEntry`. -/
def witCache : MemoryCache :=
  { entries := [witEntry], opts := ⟨10, 0, 0, 0.95⟩, hits := 0, misses := 0 }

/-- Witness for the amended C1 at a concrete input: querying `witCache`
with the embedding of its sole entry and threshold `0.9` yields a hit. -/
theorem get_highest_qualifying_witness :
    (witCache.Get 0 [1, 0, 0] 0.9).found = true :=
  ((get_highest_qualifying witCache 0 [1, 0, 0] 0.9).1
    ⟨witEntry, by simp [witCache], by norm_num [witEntry],
      by show CosineSimilarity [1, 0, 0] [1, 0, 0] ≥ 0.9; rw [cs_e1_e1]; norm_num,
      by show (0 : ℝ) < CosineSimilarity [1, 0, 0] [1, 0, 0]; rw [cs_e1_e1]; norm_num⟩).1

/-- C6: during the `Get` scan a candidate replaces the running best only
when its similarity is strictly greater; a candidate whose similarity
exactly equals the current best leaves the accumulator unchanged, and
consequently the entry returned by `Get` is the earliest-scanned one among
the qualifying entries of its similarity: every qualifying entry scanned
before it has strictly smaller similarity. -/
theorem get_strict_improvement (now : ℤ) (emb : List ℝ) (thr : ℝ) :
    (∀ (acc : Option CacheEntry × ℝ) (e : CacheEntry),
        CosineSimilarity emb e.embedding = acc.2 → getStep now emb thr acc e = acc) ∧
    (∀ (m : MemoryCache) (e : CacheEntry), (m.Get now emb thr).entry = some e →
        ∃ l₁ l₂, m.entries = l₁ ++ e :: l₂ ∧
          (m.Get now emb thr).similarity = CosineSimilarity emb e.embedding ∧
          ∀ x ∈ l₁, ¬ now > x.expiresAt → CosineSimilarity emb x.embedding ≥ thr →
            CosineSimilarity emb x.embedding < CosineSimilarity emb e.embedding) := by
  constructor
  · intro acc e h
    apply getStep_skip
    intro hc
    rw [h] at hc
    exact lt_irrefl _ hc.2.2
  · intro m e hentry
    rcases getScan_chars now emb thr m.entries (none, 0) with ⟨heq, _⟩ |
      ⟨l₁, e₀, l₂, hsplit, hlive, hthr, hgt, heq, hbefore, hafter⟩
    · exfalso
      unfold MemoryCache.Get at hentry
      rw [heq] at hentry
      exact Option.noConfusion hentry
    · have hent : (m.Get now emb thr).entry = some e₀ := by
        unfold MemoryCache.Get
        rw [heq]
      rw [hent] at hentry
      obtain rfl : e₀ = e := Option.some.inj hentry
      exact ⟨l₁, l₂, hsplit, by unfold MemoryCache.Get; rw [heq], hbefore⟩

/-- Witness for C6 at concrete inputs: a scan step whose candidate has
similarity exactly equal to the running best (both `1`) leaves the
accumulator unchanged, and the hit on `witCache` is the earliest-scanned
qualifying entry. -/
theorem get_strict_improvement_witness :
    getStep 0 [1, 0, 0] 0.9 (some cexEntry, 1) witEntry = (some cexEntry, 1) ∧
    ∃ l₁ l₂, witCache.entries = l₁ ++ witEntry :: l₂ ∧
      (witCache.Get 0 [1, 0, 0] 0.9).similarity = CosineSimilarity [1, 0, 0] witEntry.embedding ∧
      ∀ x ∈ l₁, ¬ (0 : ℤ) > x.expiresAt → CosineSimilarity [1, 0, 0] x.embedding ≥ 0.9 →
        CosineSimilarity [1, 0, 0] x.embedding < CosineSimilarity [1, 0, 0] witEntry.embedding := by
  constructor
  · exact (get_strict_improvement 0 [1, 0, 0] 0.9).1 (some cexEntry, 1) witEntry
      (by show CosineSimilarity [1, 0, 0] [1, 0, 0] = 1; exact cs_e1_e1)
  · apply (get_strict_improvement 0 [1, 0, 0] 0.9).2 witCache witEntry
    have hfold : witCache.entries.foldl (getStep 0 [1, 0, 0] 0.9) (none, 0) =
        (some witEntry, CosineSimilarity [1, 0, 0] witEntry.embedding) := by
      show [witEntry].foldl _ _ = _
      rw [List.foldl_cons, List.foldl_nil]
      exact getStep_fire 0 [1, 0, 0] 0.9 (none, 0) witEntry (by norm_num [witEntry])
        (by show CosineSimilarity [1, 0, 0] [1, 0, 0] ≥ 0.9; rw [cs_e1_e1]; norm_num)
        (by show CosineSimilarity [1, 0, 0] [1, 0, 0] > 0; rw [cs_e1_e1]; norm_num)
    unfold MemoryCache.Get
    rw [hfold]

lemma witCache_fold : witCache.entries.foldl (getStep 0 [1, 0, 0] 0.9) (none, 0) =
    (some witEntry, CosineSimilarity [1, 0, 0] witEntry.embedding) := by
  show [witEntry].foldl _ _ = _
  rw [List.foldl_cons, List.foldl_nil]
  exact getStep_fire 0 [1, 0, 0] 0.9 (none, 0) witEntry (by norm_num [witEntry])
    (by show CosineSimilarity [1, 0, 0] [1, 0, 0] ≥ 0.9; rw [cs_e1_e1]; norm_num)
    (by show CosineSimilarity [1, 0, 0] [1, 0, 0] > 0; rw [cs_e1_e1]; norm_num)

/-- C9 (failing input): on a successful lookup the hit bookkeeping is NOT
performed synchronously.  `Get` on a cache whose sole live entry has
`hitCount = 5` and `lastHitAt = 7` reports a hit and spawns the deferred
`updateHitStats` task (modelled by `deferredHitUpdate = some witEntry`),
while the cache state it returns still holds the entry with its old
`hitCount = 5` and `lastHitAt = 7`: the mutation is left to the
separately-scheduled task, contradicting the required synchronous
design. -/
theorem get_defers_hit_update :
    (witCache.Get 0 [1, 0, 0] 0.9).found = true ∧
    (witCache.Get 0 [1, 0, 0] 0.9).deferredHitUpdate = some witEntry ∧
    (witCache.Get 0 [1, 0, 0] 0.9).cache.entries = [witEntry] ∧
    witEntry.hitCount = 5 ∧ witEntry.lastHitAt = 7 := by
  unfold MemoryCache.Get
  rw [witCache_fold]
  exact ⟨rfl, rfl, rfl, rfl, rfl⟩

/-! ### Lemmas about the Set duplicate scan -/

lemma firstDupIdx_none_iff (emb : List ℝ) (l : List CacheEntry) :
    firstDupIdx emb l = none ↔ ∀ e ∈ l, CosineSimilarity emb e.embedding ≤ 0.99 := by
  induction l with
  | nil => simp [firstDupIdx]
  | cons e rest ih =>
      by_cases h : CosineSimilarity emb e.embedding > 0.99
      · simp only [firstDupIdx, if_pos h]
        constructor
        · intro hc
          exact Option.noConfusion hc
        · intro hc
          exact absurd (hc e (by simp)) (not_le.mpr h)
      · simp only [firstDupIdx, if_neg h]
        constructor
        · intro hc z hz
          rcases List.mem_cons.mp hz with hz | hz
          · rw [hz]
            exact not_lt.mp h
          · exact ih.mp (Option.map_eq_none'.mp hc) z hz
        · intro hall
          rw [ih.mpr fun z hz => hall z (List.mem_cons_of_mem _ hz)]
          rfl

lemma firstDupIdx_some (emb : List ℝ) (l : List CacheEntry) (i : Nat)
    (h : firstDupIdx emb l = some i) :
    ∃ e, l[i]? = some e ∧ CosineSimilarity emb e.embedding > 0.99 := by
  induction l generalizing i with
  | nil => exact Option.noConfusion h
  | cons e rest ih =>
      by_cases hd : CosineSimilarity emb e.embedding > 0.99
      · simp only [firstDupIdx, if_pos hd] at h
        obtain rfl : (0 : Nat) = i := Option.some.inj h
        exact ⟨e, by simp, hd⟩
      · simp only [firstDupIdx, if_neg hd] at h
        rcases Option.map_eq_some'.mp h with ⟨j, hj, hji⟩
        obtain ⟨z, hz, hzgt⟩ := ih j hj
        refine ⟨z, ?_, hzgt⟩
        rw [← hji]
        simpa using hz

lemma Set_dup (m : MemoryCache) (entry : CacheEntry) (i : Nat)
    (h : firstDupIdx entry.embedding m.entries = some i) :
    m.Set entry = { m with entries := m.entries.set i entry } := by
  unfold MemoryCache.Set
  rw [h]

lemma Set_nodup (m : MemoryCache) (entry : CacheEntry)
    (h : firstDupIdx entry.embedding m.entries = none) :
    m.Set entry = { m with entries :=
      (if m.entries.length ≥ m.opts.maxSize then evictOldest m.entries
        else m.entries) ++ [entry] } := by
  unfold MemoryCache.Set
  rw [h]

/-- C4: when some stored entry is a near-duplicate of the new entry
(similarity strictly above `0.99`), `Set` overwrites the first such stored
entry in place and the size is unchanged. -/
theorem set_dedup_in_place (m : MemoryCache) (entry : CacheEntry)
    (h : ∃ e ∈ m.entries, CosineSimilarity entry.embedding e.embedding > 0.99) :
    ∃ (i : Nat) (e : CacheEntry), m.entries[i]? = some e ∧ CosineSimilarity entry.embedding e.embedding > 0.99 ∧
      (m.Set entry).entries = m.entries.set i entry ∧
      (m.Set entry).Size = m.Size := by
  cases hd : firstDupIdx entry.embedding m.entries with
  | none =>
      exfalso
      obtain ⟨e, he, hgt⟩ := h
      exact absurd ((firstDupIdx_none_iff _ _).mp hd e he) (not_le.mpr hgt)
  | some i =>
      obtain ⟨e, hei, hgt⟩ := firstDupIdx_some _ _ _ hd
      refine ⟨i, e, hei, hgt, ?_, ?_⟩
      · rw [Set_dup m entry i hd]
      · rw [Set_dup m entry i hd]
        unfold MemoryCache.Size
        simp

/-- A fresh entry with the same embedding as `witEntry` and no hit
bookkeeping yet. -/
def dupEntry : CacheEntry :=
  { request := 2, response := 2, embedding := [1, 0, 0], createdAt := 50,
    expiresAt := 150, hitCount := 0, lastHitAt := 0 }

lemma dup_in_witCache :
    ∃ e ∈ witCache.entries, CosineSimilarity dupEntry.embedding e.embedding > 0.99 :=
  ⟨witEntry, by simp [witCache],
    by show CosineSimilarity [1, 0, 0] [1, 0, 0] > 0.99; rw [cs_e1_e1]; norm_num⟩

/-- Witness for C4 at a concrete input: storing `dupEntry` into `witCache`
(whose sole entry has the same embedding) overwrites in place and keeps
the size at `1`. -/
theorem set_dedup_in_place_witness :
    (∃ e ∈ witCache.entries, CosineSimilarity dupEntry.embedding e.embedding > 0.99) ∧
    ∃ (i : Nat) (e : CacheEntry), witCache.entries[i]? = some e ∧
      CosineSimilarity dupEntry.embedding e.embedding > 0.99 ∧
      (witCache.Set dupEntry).entries = witCache.entries.set i dupEntry ∧
      (witCache.Set dupEntry).Size = witCache.Size :=
  ⟨dup_in_witCache, set_dedup_in_place witCache dupEntry dup_in_witCache⟩

/-- C10: when `Set` overwrites a near-duplicate, the stored slot afterwards
holds the new entry wholesale: whatever `hitCount` and `lastHitAt` the
overwritten entry had accumulated are discarded, and the slot's
bookkeeping fields are exactly those of the new entry. -/
theorem set_dedup_discards_bookkeeping (m : MemoryCache) (entry : CacheEntry)
    (h : ∃ e ∈ m.entries, CosineSimilarity entry.embedding e.embedding > 0.99) :
    ∃ (i : Nat) (old : CacheEntry), m.entries[i]? = some old ∧
      CosineSimilarity entry.embedding old.embedding > 0.99 ∧
      (m.Set entry).entries[i]? = some entry ∧
      ∀ e2 : CacheEntry, (m.Set entry).entries[i]? = some e2 →
        e2.hitCount = entry.hitCount ∧ e2.lastHitAt = entry.lastHitAt := by
  cases hd : firstDupIdx entry.embedding m.entries with
  | none =>
      exfalso
      obtain ⟨e, he, hgt⟩ := h
      exact absurd ((firstDupIdx_none_iff _ _).mp hd e he) (not_le.mpr hgt)
  | some i =>
      obtain ⟨e, hei, hgt⟩ := firstDupIdx_some _ _ _ hd
      have hlt : i < m.entries.length := by
        rcases List.getElem?_eq_some.mp hei with ⟨hl, _⟩
        exact hl
      have hslot : (m.Set entry).entries[i]? = some entry := by
        rw [Set_dup m entry i hd]
        exact List.getElem?_set_self hlt
      refine ⟨i, e, hei, hgt, hslot, ?_⟩
      intro e2 he2
      rw [hslot] at he2
      obtain rfl : entry = e2 := Option.some.inj he2
      exact ⟨rfl, rfl⟩

/-- Witness for C10 at a concrete input: overwriting `witEntry` (hitCount
`5`, lastHitAt `7`) with `dupEntry` (hitCount `0`, lastHitAt `0`) leaves
the slot holding `dupEntry`, with the old bookkeeping discarded. -/
theorem set_dedup_discards_bookkeeping_witness :
    (∃ e ∈ witCache.entries, CosineSimilarity dupEntry.embedding e.embedding > 0.99) ∧
    ∃ (i : Nat) (old : CacheEntry), witCache.entries[i]? = some old ∧
      CosineSimilarity dupEntry.embedding old.embedding > 0.99 ∧
      (witCache.Set dupEntry).entries[i]? = some dupEntry ∧
      ∀ e2 : CacheEntry, (witCache.Set dupEntry).entries[i]? = some e2 →
        e2.hitCount = dupEntry.hitCount ∧ e2.lastHitAt = dupEntry.lastHitAt :=
  ⟨dup_in_witCache, set_dedup_discards_bookkeeping witCache dupEntry dup_in_witCache⟩

/-! ### Lemmas about eviction -/

lemma oldestFold_spec (ps : List (Nat × CacheEntry)) :
    ∀ acc : Nat × ℤ,
    (ps.foldl oldestStep acc = acc ∨
      ∃ q ∈ ps, ps.foldl oldestStep acc = (q.1, q.2.lastHitAt)) ∧
    (ps.foldl oldestStep acc).2 ≤ acc.2 ∧
    ∀ q ∈ ps, (ps.foldl oldestStep acc).2 ≤ q.2.lastHitAt := by
  induction ps with
  | nil => intro acc; exact ⟨Or.inl rfl, le_refl _, by simp⟩
  | cons p rest ih =>
      intro acc
      rw [List.foldl_cons]
      by_cases h : p.2.lastHitAt < acc.2
      · have hstep : oldestStep acc p = (p.1, p.2.lastHitAt) := by simp [oldestStep, h]
        rw [hstep]
        obtain ⟨hcase, hle, hall⟩ := ih (p.1, p.2.lastHitAt)
        refine ⟨?_, le_trans hle (le_of_lt h), ?_⟩
        · rcases hcase with hc | ⟨q, hq, hc⟩
          · right
            exact ⟨p, by simp, hc⟩
          · right
            exact ⟨q, List.mem_cons_of_mem p hq, hc⟩
        · intro q hq
          rcases List.mem_cons.mp hq with hq | hq
          · rw [hq]
            exact hle
          · exact hall q hq
      · have hstep : oldestStep acc p = acc := by simp [oldestStep, h]
        rw [hstep]
        obtain ⟨hcase, hle, hall⟩ := ih acc
        refine ⟨?_, hle, ?_⟩
        · rcases hcase with hc | ⟨q, hq, hc⟩
          · left
            exact hc
          · right
            exact ⟨q, List.mem_cons_of_mem p hq, hc⟩
        · intro q hq
          rcases List.mem_cons.mp hq with hq | hq
          · rw [hq]
            exact le_trans hle (not_lt.mp h)
          · exact hall q hq

lemma evictOldest_spec (l : List CacheEntry) (h : l ≠ []) :
    ∃ i, i < l.length ∧ evictOldest l = swapRemove l i ∧
      ∀ em, l[i]? = some em → ∀ e ∈ l, em.lastHitAt ≤ e.lastHitAt := by
  cases l with
  | nil => exact absurd rfl h
  | cons e0 rest =>
      obtain ⟨hcase, hle, hall⟩ := oldestFold_spec ((e0 :: rest).enum) (0, e0.lastHitAt)
      set p := (e0 :: rest).enum.foldl oldestStep (0, e0.lastHitAt) with hp
      have hev : evictOldest (e0 :: rest) = swapRemove (e0 :: rest) p.1 := rfl
      have hget : ∃ em, (e0 :: rest)[p.1]? = some em ∧ em.lastHitAt = p.2 := by
        rcases hcase with hc | ⟨q, hq, hc⟩
        · exact ⟨e0, by rw [hc]; simp, by rw [hc]⟩
        · exact ⟨q.2, by rw [hc]; exact List.mem_enum_iff_getElem?.mp hq, by rw [hc]⟩
      obtain ⟨em, hem, hemt⟩ := hget
      have hlt : p.1 < (e0 :: rest).length := by
        rcases List.getElem?_eq_some_iff.mp hem with ⟨hl, _⟩
        exact hl
      refine ⟨p.1, hlt, hev, ?_⟩
      intro em' hem' e he
      rw [hem] at hem'
      obtain rfl := Option.some.inj hem'
      rw [hemt]
      obtain ⟨n, hn⟩ := List.mem_iff_getElem?.mp he
      exact hall (n, e) (List.mem_enum_iff_getElem?.mpr hn)

/-- C2: `evictOldest` removes the entry at an index holding the earliest
`lastHitAt` among all entries (so a never-hit entry, whose `lastHitAt` is
the zero value, is evicted before any entry that has been hit, whose
`lastHitAt` is a positive real timestamp); in particular, storing a third
distinct entry `C` into a capacity-2 cache holding a never-hit `A` and a
once-hit `B` evicts `A`, not `B`, leaving `[B, C]`. -/
theorem evict_earliest_lastHit :
    (∀ l : List CacheEntry, l ≠ [] →
      ∃ i, i < l.length ∧ evictOldest l = swapRemove l i ∧
        ∀ em, l[i]? = some em → ∀ e ∈ l, em.lastHitAt ≤ e.lastHitAt) ∧
    (∀ (m : MemoryCache) (A B C : CacheEntry),
      m.entries = [A, B] → m.opts.maxSize = 2 →
      A.lastHitAt = 0 → 0 < B.lastHitAt →
      CosineSimilarity C.embedding A.embedding ≤ 0.99 →
      CosineSimilarity C.embedding B.embedding ≤ 0.99 →
      (m.Set C).entries = [B, C]) := by
  constructor
  · intro l hne
    exact evictOldest_spec l hne
  · intro m A B C hent hmax hA hB hCA hCB
    have hdup : firstDupIdx C.embedding m.entries = none := by
      rw [hent]
      apply (firstDupIdx_none_iff _ _).mpr
      intro e he
      simp only [List.mem_cons, List.mem_singleton, List.not_mem_nil, or_false] at he
      rcases he with he | he
      · rw [he]
        exact hCA
      · rw [he]
        exact hCB
    rw [Set_nodup m C hdup]
    show (if m.entries.length ≥ m.opts.maxSize then evictOldest m.entries
      else m.entries) ++ [C] = [B, C]
    rw [hent, hmax, if_pos (by norm_num : ([A, B] : List CacheEntry).length ≥ 2)]
    have hevict : evictOldest [A, B] = [B] := by
      obtain ⟨i, hilt, hev, hmin⟩ := evictOldest_spec [A, B] (by simp)
      simp only [List.length_cons, List.length_nil] at hilt
      interval_cases i
      · rw [hev]
        rfl
      · exfalso
        have := hmin B (by simp) A (by simp)
        rw [hA] at this
        exact absurd this (not_le.mpr hB)
    rw [hevict]
    rfl

lemma cs_e3_e1 : CosineSimilarity ([0, 0, 1] : List ℝ) [1, 0, 0] = 0 := by
  unfold CosineSimilarity sqNorm dotList
  norm_num

lemma cs_e3_e2 : CosineSimilarity ([0, 0, 1] : List ℝ) [0, 1, 0] = 0 := by
  unfold CosineSimilarity sqNorm dotList
  norm_num

/-- A never-hit entry with embedding `[1, 0, 0]`. -/
def entryA : CacheEntry :=
  { request := 10, response := 10, embedding := [1, 0, 0], createdAt := 0,
    expiresAt := 100, hitCount := 0, lastHitAt := 0 }

/-- A once-hit entry with embedding `[0, 1, 0]`, created at the same time
as `entryA`. -/
def entryB : CacheEntry :=
  { request := 11, response := 11, embedding := [0, 1, 0], createdAt := 0,
    expiresAt := 100, hitCount := 1, lastHitAt := 7 }

/-- A fresh third entry with embedding `[0, 0, 1]`. -/
def entryC : CacheEntry :=
  { request := 12, response := 12, embedding := [0, 0, 1], createdAt := 5,
    expiresAt := 100, hitCount := 0, lastHitAt := 0 }

/-- A capacity-2 cache holding `entryA` (never hit) and `entryB` (hit
once). -/
def cacheAB : MemoryCache :=
  { entries := [entryA, entryB], opts := ⟨2, 0, 0, 0.95⟩, hits := 0, misses := 0 }

/-- Witness for C2 at concrete inputs: evicting from the singleton list
removes its minimum, and storing `entryC` into `cacheAB` evicts the
never-hit `entryA`, leaving `[entryB, entryC]`. -/
theorem evict_earliest_lastHit_witness :
    (∃ i, i < [entryA].length ∧ evictOldest [entryA] = swapRemove [entryA] i ∧
      ∀ em, [entryA][i]? = some em → ∀ e ∈ [entryA], em.lastHitAt ≤ e.lastHitAt) ∧
    (cacheAB.Set entryC).entries = [entryB, entryC] := by
  constructor
  · exact evict_earliest_lastHit.1 [entryA] (by simp)
  · exact evict_earliest_lastHit.2 cacheAB entryA entryB entryC rfl rfl rfl
      (by norm_num [entryB])
      (by show CosineSimilarity [0, 0, 1] [1, 0, 0] ≤ 0.99; rw [cs_e3_e1]; norm_num)
      (by show CosineSimilarity [0, 0, 1] [0, 1, 0] ≤ 0.99; rw [cs_e3_e2]; norm_num)

/-! ### Lemmas about capacity-driven eviction -/

lemma swapRemove_perm (l : List CacheEntry) (i : Nat) (h : i < l.length) :
    (swapRemove l i).Perm (l.eraseIdx i) := by
  rcases l.eq_nil_or_concat with rfl | ⟨t, b, rfl⟩
  · simp at h
  · rw [List.concat_eq_append] at h ⊢
    unfold swapRemove
    rw [List.getLast?_concat]
    show (((t ++ [b]).set i b).dropLast).Perm ((t ++ [b]).eraseIdx i)
    simp only [List.length_append, List.length_cons, List.length_nil] at h
    by_cases hi : i < t.length
    · rw [List.set_append_left i b hi, List.dropLast_concat,
        List.eraseIdx_append_of_lt_length hi,
        List.set_eq_take_cons_drop b hi, List.eraseIdx_eq_take_drop_succ,
        List.append_assoc]
      exact List.Perm.append_left _ (List.perm_append_singleton b _).symm
    · have hi' : i = t.length := by omega
      subst hi'
      rw [List.set_append_right _ b (le_refl t.length),
        List.eraseIdx_append_of_length_le (le_refl t.length)]
      simp

lemma foldl_Set_append (es : List CacheEntry) :
    ∀ m : MemoryCache,
    m.entries.length + es.length ≤ m.opts.maxSize →
    (∀ e ∈ es, ∀ a ∈ m.entries, CosineSimilarity e.embedding a.embedding ≤ 0.99) →
    List.Pairwise (fun a b => CosineSimilarity b.embedding a.embedding ≤ 0.99) es →
    (es.foldl MemoryCache.Set m).entries = m.entries ++ es ∧
    (es.foldl MemoryCache.Set m).opts = m.opts := by
  induction es with
  | nil => intro m _ _ _; simp
  | cons e rest ih =>
      intro m hlen hcross hpw
      rw [List.foldl_cons]
      have hdup : firstDupIdx e.embedding m.entries = none :=
        (firstDupIdx_none_iff _ _).mpr fun a ha => hcross e (by simp) a ha
      have hset : m.Set e = { m with entries := m.entries ++ [e] } := by
        rw [Set_nodup m e hdup, if_neg (by simp at hlen; omega)]
      rw [hset]
      obtain ⟨h1, h2⟩ := ih { m with entries := m.entries ++ [e] }
        (by simp at hlen ⊢; omega)
        (by
          intro z hz a ha
          rcases List.mem_append.mp ha with ha | ha
          · exact hcross z (List.mem_cons_of_mem _ hz) a ha
          · rw [List.mem_singleton.mp ha]
            exact (List.pairwise_cons.mp hpw).1 z hz)
        (List.pairwise_cons.mp hpw).2
      exact ⟨by rw [h1]; simp, by rw [h2]⟩

/-- C3: starting from an empty cache of capacity `N > 0`, inserting `N`
entries whose embeddings are pairwise non-duplicates (no similarity above
`0.99`) stores them all; inserting one more such entry keeps the size at
most `N` and the resulting collection is, up to order, the old one with
exactly one previously-stored entry removed and the new entry added. -/
theorem capacity_eviction (N : ℕ) (opts : Options) (es : List CacheEntry) (f : CacheEntry)
    (hN : 0 < N) (hmax : opts.maxSize = N) (hlen : es.length = N)
    (hpw : List.Pairwise (fun a b => CosineSimilarity b.embedding a.embedding ≤ 0.99)
      (es ++ [f])) :
    (es.foldl MemoryCache.Set (NewMemoryCache opts)).entries = es ∧
    ((es.foldl MemoryCache.Set (NewMemoryCache opts)).Set f).Size ≤ N ∧
    ∃ i, i < N ∧
      ((es.foldl MemoryCache.Set (NewMemoryCache opts)).Set f).entries.Perm
        (es.eraseIdx i ++ [f]) := by
  rw [List.pairwise_append] at hpw
  obtain ⟨hpes, -, hcross⟩ := hpw
  obtain ⟨hent0, hopts⟩ := foldl_Set_append es (NewMemoryCache opts)
    (by simp [NewMemoryCache, hmax, hlen])
    (by intro e _ a ha; simp [NewMemoryCache] at ha) hpes
  have hent : (es.foldl MemoryCache.Set (NewMemoryCache opts)).entries = es := by
    rw [hent0]
    simp [NewMemoryCache]
  have hdup : firstDupIdx f.embedding
      (es.foldl MemoryCache.Set (NewMemoryCache opts)).entries = none := by
    rw [hent]
    exact (firstDupIdx_none_iff _ _).mpr fun a ha => hcross a ha f (by simp)
  have hcond : (es.foldl MemoryCache.Set (NewMemoryCache opts)).entries.length ≥
      (es.foldl MemoryCache.Set (NewMemoryCache opts)).opts.maxSize := by
    rw [hent, hopts]
    simp [NewMemoryCache, hmax, hlen]
  have hne : (es.foldl MemoryCache.Set (NewMemoryCache opts)).entries ≠ [] := by
    rw [hent]
    intro hc
    rw [hc] at hlen
    simp at hlen
    omega
  obtain ⟨i, hilt, hev, -⟩ := evictOldest_spec _ hne
  rw [hent] at hev hilt
  have hset : ((es.foldl MemoryCache.Set (NewMemoryCache opts)).Set f).entries =
      evictOldest es ++ [f] := by
    rw [Set_nodup _ f hdup]
    show (if _ ≥ _ then evictOldest _ else _) ++ [f] = _
    rw [if_pos hcond, hent]
  have hperm : ((es.foldl MemoryCache.Set (NewMemoryCache opts)).Set f).entries.Perm
      (es.eraseIdx i ++ [f]) := by
    rw [hset, hev]
    exact (swapRemove_perm es i hilt).append_right [f]
  refine ⟨hent, ?_, ⟨i, by omega, hperm⟩⟩
  show ((es.foldl MemoryCache.Set (NewMemoryCache opts)).Set f).entries.length ≤ N
  rw [hperm.length_eq]
  simp [List.length_eraseIdx_of_lt hilt]
  omega

lemma cs_e2_e1 : CosineSimilarity ([0, 1, 0] : List ℝ) [1, 0, 0] = 0 := by
  unfold CosineSimilarity sqNorm dotList
  norm_num

lemma pairwise_AB :
    List.Pairwise (fun a b => CosineSimilarity b.embedding a.embedding ≤ 0.99)
      ([entryA] ++ [entryB]) := by
  simp only [List.singleton_append, List.pairwise_cons, List.mem_singleton,
    List.pairwise_cons, List.not_mem_nil, false_implies, implies_true,
    List.Pairwise.nil, and_true]
  intro b hb
  rw [hb]
  show CosineSimilarity [0, 1, 0] [1, 0, 0] ≤ 0.99
  rw [cs_e2_e1]
  norm_num

/-- Witness for C3 at a concrete input: capacity `1`, one stored entry
`entryA`, then storing `entryB` keeps the size at `1` and replaces the one
previously-stored entry. -/
theorem capacity_eviction_witness :
    (0 < 1 ∧ (⟨1, 0, 0, 0.95⟩ : Options).maxSize = 1 ∧ [entryA].length = 1 ∧
      List.Pairwise (fun a b => CosineSimilarity b.embedding a.embedding ≤ 0.99)
        ([entryA] ++ [entryB])) ∧
    ([entryA].foldl MemoryCache.Set (NewMemoryCache ⟨1, 0, 0, 0.95⟩)).entries = [entryA] ∧
    (([entryA].foldl MemoryCache.Set (NewMemoryCache ⟨1, 0, 0, 0.95⟩)).Set entryB).Size ≤ 1 ∧
    ∃ i, i < 1 ∧
      (([entryA].foldl MemoryCache.Set
        (NewMemoryCache ⟨1, 0, 0, 0.95⟩)).Set entryB).entries.Perm
        ([entryA].eraseIdx i ++ [entryB]) :=
  ⟨⟨by norm_num, rfl, rfl, pairwise_AB⟩,
    capacity_eviction 1 ⟨1, 0, 0, 0.95⟩ [entryA] entryB (by norm_num) rfl rfl pairwise_AB⟩

end Kallm
